import Mathlib

/-
Shallow embedding of the orc.rs weighted-reference-counting arena
(src/lib.rs).  The arena (`OrcHeap`) is a fixed list of slots
(`OrcInner`): each slot carries an atomic `usize` weight counter
(modelled as a `Nat` together with explicit wrap-around modulo `2^64`
where the source performs wrapping `usize` arithmetic) and an
`Option T` payload.  A handle (`Orc`) stores the slot address
(modelled as the slot index, standing for the 7 little-endian address
bytes of `pointer_data`) and its private weight exponent
(`weight_exp : Cell<u8>`).  Rust panics are modelled by the
`RustOutcome.panicked` constructor; `Result::Err` by `Except.error`.
Concurrency is modelled as arbitrary interleaving of the atomic
operations: a global state holds the heap plus the multiset of live
handles, and each atomic read-modify-write of the source is one step
of an inductive transition relation.
-/

namespace OrcModel

/-- Outcome of a Rust call that can panic (`panic!` / failed `unwrap`). -/
inductive RustOutcome (α : Type) where
  | ok : α → RustOutcome α
  | panicked : String → RustOutcome α
deriving DecidableEq

/-- Pointer width of the modelled 64-bit target (`target_pointer_width = "64"`). -/
def PTR_SIZE : Nat := 8

/-- One past the largest `usize` value (2 to the power of the pointer bit
width): `usize` arithmetic wraps modulo this. -/
def USIZE : Nat := Nat.pow 2 (PTR_SIZE * 8)

/-- `const MAX_WEIGHT_EXP: u8 = PTR_SIZE as u8 * 8 - 1;` -/
def MAX_WEIGHT_EXP : Nat := PTR_SIZE * 8 - 1

/-- `const MAX_WEIGHT: usize = 1usize << MAX_WEIGHT_EXP;` -/
def MAX_WEIGHT : Nat := 1 <<< MAX_WEIGHT_EXP

/-- `fn two_two_the(exp: u8) -> usize { 1usize << exp }`.  Every exponent the
program ever shifts by is at most `MAX_WEIGHT_EXP = 63` (proved below as part
of the reachability invariant), so the shift never exceeds the `usize` range
and is modelled as the exact power of two. -/
def two_two_the (exp : Nat) : Nat := 1 <<< exp

/-- `struct OrcInner<T> { weight: AtomicUsize, data: Option<T> }` -/
structure OrcInner (T : Type) where
  weight : Nat
  data : Option T
deriving DecidableEq

/-- `struct Orc<'a, T>` — a handle.  `pointer_data` holds the slot's address
bytes; we model it as the index of the slot in the heap list.  `weight_exp`
is the handle's private weight exponent (a `Cell<u8>`). -/
structure Orc where
  pointer_data : Nat
  weight_exp : Nat
deriving DecidableEq

/-- Wrapping `usize` subtraction, as performed by `AtomicUsize::fetch_sub`. -/
def fetch_sub_wrap (w x : Nat) : Nat := (w + (USIZE - x % USIZE)) % USIZE

/-- `Drop for Orc`: subtract `2^weight_exp` from the slot's weight counter
(`slot.weight.fetch_sub(weight, Ordering::Release)`).  Nothing else happens:
the payload is not touched. -/
def dropOrc {T : Type} (heap : List (OrcInner T)) (h : Orc) : List (OrcInner T) :=
  match heap.get? h.pointer_data with
  | some s =>
      heap.set h.pointer_data
        ⟨fetch_sub_wrap s.weight (two_two_the h.weight_exp), s.data⟩
  | none => heap

/-- `Clone for Orc`: if `weight_exp > 1`, decrement the caller's exponent and
return a fresh handle to the same slot with the same decremented exponent;
otherwise `panic!("not implemented yet")`.  The result pairs the mutated
original handle with the newly produced one. -/
def cloneOrc (h : Orc) : RustOutcome (Orc × Orc) :=
  if 1 < h.weight_exp then
    RustOutcome.ok
      (⟨h.pointer_data, h.weight_exp - 1⟩, ⟨h.pointer_data, h.weight_exp - 1⟩)
  else
    RustOutcome.panicked "not implemented yet"

/-- `Deref for Orc`: read the slot's payload.  The source's `None` branch is
`unreachable!()`; we model reaching it (or an out-of-range address, which the
source cannot produce) as `none`. -/
def derefOrc {T : Type} (heap : List (OrcInner T)) (h : Orc) : Option T :=
  match heap.get? h.pointer_data with
  | some s => s.data
  | none => none

/-- The scan loop of `OrcHeap::alloc`: starting at position 0, try
`compare_and_swap(0, MAX_WEIGHT)` on each slot in turn; on the first success
overwrite the payload with `Some value` and report the claimed index.  `none`
means the scan wrapped around without finding a zero-weight slot. -/
def allocLoop {T : Type} (v : T) : List (OrcInner T) → Option (List (OrcInner T) × Nat)
  | [] => none
  | s :: rest =>
      if s.weight = 0 then
        some (⟨MAX_WEIGHT, some v⟩ :: rest, 0)
      else
        match allocLoop v rest with
        | some (rest', i) => some (s :: rest', i + 1)
        | none => none

/-- `OrcHeap::alloc`: claim the first zero-weight slot via the CAS loop and
hand out a handle with the full weight exponent `MAX_WEIGHT_EXP`; if the scan
finds none, return `Err("Out of memory")` leaving the heap as it was. -/
def alloc {T : Type} (heap : List (OrcInner T)) (v : T) :
    List (OrcInner T) × Except String Orc :=
  match allocLoop v heap with
  | some (heap', i) => (heap', Except.ok ⟨i, MAX_WEIGHT_EXP⟩)
  | none => (heap, Except.error "Out of memory")

/-- `OrcHeap::collect`: for every slot whose `compare_and_swap(0, MAX_WEIGHT)`
succeeds (i.e. whose weight counter is zero), set the weight to `MAX_WEIGHT`
and overwrite the payload with `None`. -/
def collectHeap {T : Type} (heap : List (OrcInner T)) : List (OrcInner T) :=
  heap.map fun s => if s.weight = 0 then ⟨MAX_WEIGHT, none⟩ else s

/-- `OrcHeap::with_capacity`: build `capacity` slots, each with weight `0` and
payload `None`, then run the alignment self-check
`heap.iter().nth(capacity - 1).unwrap()`.  The index `capacity - 1` is a
wrapping `usize` subtraction (release-mode semantics); for `capacity = 0` it
wraps to `USIZE - 1`, the lookup yields `None` and the `unwrap` panics.  The
`assert_eq!(weight, 0)` on the deconstructed pointer checks that the most
significant byte of the last slot's machine address is zero; machine address
values are outside a shallow embedding, and on the supported 64-bit targets
user-space addresses keep that byte zero, so the assert is modelled as
passing whenever the lookup succeeds. -/
def with_capacity (T : Type) (capacity : Nat) : RustOutcome (List (OrcInner T)) :=
  match (List.replicate capacity (⟨0, none⟩ : OrcInner T)).get?
      ((capacity + (USIZE - 1)) % USIZE) with
  | none => RustOutcome.panicked "called Option::unwrap on a None value"
  | some _ => RustOutcome.ok (List.replicate capacity ⟨0, none⟩)

/-- Total weight owned by the live handles that reference slot `i`:
the sum of `2^weight_exp` over exactly those handles. -/
def handleSum (handles : List Orc) (i : Nat) : Nat :=
  (handles.map fun h => if h.pointer_data = i then two_two_the h.weight_exp else 0).sum

/-- Global state of one arena under arbitrary interleavings: the heap plus
the multiset of currently live handles derived from it. -/
structure GState (T : Type) where
  heap : List (OrcInner T)
  handles : List Orc

/-- One atomic step of the system.  The flag `c` enables the host-triggered
`collect` sweep; with `c = false` the system runs only the handle protocol
(alloc / clone / drop). -/
inductive Step (T : Type) (c : Bool) : GState T → GState T → Prop where
  | allocStep (s : GState T) (v : T) (heap' : List (OrcInner T)) (h : Orc) :
      alloc s.heap v = (heap', Except.ok h) →
      Step T c s ⟨heap', h :: s.handles⟩
  | cloneStep (s : GState T) (l₁ l₂ : List Orc) (h h₁ h₂ : Orc) :
      s.handles = l₁ ++ h :: l₂ →
      cloneOrc h = RustOutcome.ok (h₁, h₂) →
      Step T c s ⟨s.heap, l₁ ++ h₁ :: h₂ :: l₂⟩
  | dropStep (s : GState T) (l₁ l₂ : List Orc) (h : Orc) :
      s.handles = l₁ ++ h :: l₂ →
      Step T c s ⟨dropOrc s.heap h, l₁ ++ l₂⟩
  | collectStep (s : GState T) :
      c = true →
      Step T c s ⟨collectHeap s.heap, s.handles⟩

/-- States reachable from a freshly constructed arena of capacity `n`. -/
inductive Reachable (T : Type) (c : Bool) (n : Nat) : GState T → Prop where
  | init (heap : List (OrcInner T)) :
      with_capacity T n = RustOutcome.ok heap →
      Reachable T c n ⟨heap, []⟩
  | step (s s' : GState T) :
      Reachable T c n s → Step T c s s' → Reachable T c n s'

/-- Zero or more steps. -/
inductive Steps (T : Type) (c : Bool) : GState T → GState T → Prop where
  | refl (s : GState T) : Steps T c s s
  | tail (s₁ s₂ s₃ : GState T) :
      Steps T c s₁ s₂ → Step T c s₂ s₃ → Steps T c s₁ s₃

-- basic arithmetic facts about the constants

theorem two_two_the_eq (e : Nat) : two_two_the e = 2 ^ e := by
  simp [two_two_the, Nat.shiftLeft_eq]

theorem two_two_the_pos (e : Nat) : 0 < two_two_the e := by
  rw [two_two_the_eq]; exact Nat.pos_pow_of_pos e (by decide)

theorem MAX_WEIGHT_eq : MAX_WEIGHT = 2 ^ 63 := by decide

theorem MAX_WEIGHT_ne_zero : MAX_WEIGHT ≠ 0 := by decide

theorem MAX_WEIGHT_lt_USIZE : MAX_WEIGHT < USIZE := by decide

theorem two_two_the_le_MAX {e : Nat} (he : e ≤ MAX_WEIGHT_EXP) :
    two_two_the e ≤ MAX_WEIGHT := by
  rw [two_two_the_eq, MAX_WEIGHT_eq]
  exact Nat.pow_le_pow_right (by decide) (by simpa [MAX_WEIGHT_EXP, PTR_SIZE] using he)

theorem fetch_sub_wrap_eq {w x : Nat} (hx : x ≤ w) (hw : w < USIZE) :
    fetch_sub_wrap w x = w - x := by
  have hxU : x < USIZE := lt_of_le_of_lt hx hw
  have hmod : x % USIZE = x := Nat.mod_eq_of_lt hxU
  have harith : w + (USIZE - x) = (w - x) + USIZE := by omega
  rw [fetch_sub_wrap, hmod, harith, Nat.add_mod_right]
  exact Nat.mod_eq_of_lt (by omega)

-- handleSum lemmas

theorem handleSum_nil (i : Nat) : handleSum [] i = 0 := rfl

theorem handleSum_cons (h : Orc) (l : List Orc) (i : Nat) :
    handleSum (h :: l) i =
      (if h.pointer_data = i then two_two_the h.weight_exp else 0) + handleSum l i := by
  simp [handleSum]

theorem handleSum_append (l₁ l₂ : List Orc) (i : Nat) :
    handleSum (l₁ ++ l₂) i = handleSum l₁ i + handleSum l₂ i := by
  simp [handleSum, Nat.sum_append]

theorem le_handleSum {h : Orc} {l : List Orc} (hm : h ∈ l) :
    two_two_the h.weight_exp ≤ handleSum l h.pointer_data := by
  induction l with
  | nil => cases hm
  | cons a l ih =>
    rw [handleSum_cons]
    rcases List.mem_cons.mp hm with heq | hmem
    · subst heq; simp
    · exact le_add_of_nonneg_of_le (Nat.zero_le _) (ih hmem)

theorem handleSum_eq_zero {l : List Orc} {i : Nat} :
    handleSum l i = 0 ↔ ∀ h ∈ l, h.pointer_data ≠ i := by
  induction l with
  | nil => simp [handleSum_nil]
  | cons a l ih =>
    rw [handleSum_cons]
    constructor
    · intro h0
      have h1 : (if a.pointer_data = i then two_two_the a.weight_exp else 0) = 0 ∧
          handleSum l i = 0 := by omega
      intro h hm
      rcases List.mem_cons.mp hm with heq | hmem
      · subst heq
        intro hcontra
        rw [if_pos hcontra] at h1
        exact Nat.lt_irrefl 0 (h1.1 ▸ two_two_the_pos h.weight_exp)
      · exact ih.mp h1.2 h hmem
    · intro hall
      rw [if_neg (hall a (List.mem_cons_self a l)), Nat.zero_add]
      exact ih.mpr fun h hm => hall h (List.mem_cons_of_mem a hm)

-- characterization of the allocation scan

theorem allocLoop_eq_some {T : Type} (v : T) (heap : List (OrcInner T)) :
    ∀ (heap' : List (OrcInner T)) (i : Nat),
      allocLoop v heap = some (heap', i) →
      i < heap.length ∧
      (∃ sl, heap.get? i = some sl ∧ sl.weight = 0) ∧
      heap' = heap.set i ⟨MAX_WEIGHT, some v⟩ ∧
      (∀ j sl, j < i → heap.get? j = some sl → sl.weight ≠ 0) := by
  induction heap with
  | nil => intro heap' i h; simp [allocLoop] at h
  | cons s rest ih =>
    intro heap' i h
    rw [allocLoop] at h
    by_cases hw : s.weight = 0
    · rw [if_pos hw] at h
      injection h with h
      have hfst : heap' = ⟨MAX_WEIGHT, some v⟩ :: rest := (congrArg Prod.fst h).symm
      have hsnd : i = 0 := (congrArg Prod.snd h).symm
      subst hfst; subst hsnd
      refine ⟨Nat.succ_pos _, ⟨s, rfl, hw⟩, rfl, ?_⟩
      intro j sl hj
      omega
    · rw [if_neg hw] at h
      cases hrec : allocLoop v rest with
      | none => rw [hrec] at h; cases h
      | some p =>
        obtain ⟨rest', i₀⟩ := p
        rw [hrec] at h
        injection h with h
        have hfst : heap' = s :: rest' := (congrArg Prod.fst h).symm
        have hsnd : i = i₀ + 1 := (congrArg Prod.snd h).symm
        subst hfst; subst hsnd
        obtain ⟨hlt, ⟨sl, hget, hsl⟩, hset, hprev⟩ := ih rest' i₀ hrec
        refine ⟨Nat.succ_lt_succ hlt, ⟨sl, by simpa using hget, hsl⟩, by simp [hset], ?_⟩
        intro j sl' hj hget'
        cases j with
        | zero =>
          simp only [List.get?_cons_zero] at hget'
          injection hget' with hget'
          subst hget'
          exact hw
        | succ j' =>
          simp only [List.get?_cons_succ] at hget'
          exact hprev j' sl' (Nat.lt_of_succ_lt_succ hj) hget'

theorem allocLoop_eq_none {T : Type} (v : T) (heap : List (OrcInner T)) :
    allocLoop v heap = none ↔ ∀ sl ∈ heap, sl.weight ≠ 0 := by
  induction heap with
  | nil => simp [allocLoop]
  | cons s rest ih =>
    rw [allocLoop]
    by_cases hw : s.weight = 0
    · simp [hw]
    · rw [if_neg hw]
      cases hrec : allocLoop v rest with
      | none =>
        constructor
        · intro _ sl hm
          rcases List.mem_cons.mp hm with heq | hmem
          · subst heq; exact hw
          · exact (ih.mp hrec) sl hmem
        · intro _; rfl
      | some p =>
        constructor
        · intro hcontra; cases hcontra
        · intro hall
          have hnone : allocLoop v rest = none :=
            ih.mpr fun sl hm => hall sl (List.mem_cons_of_mem s hm)
          rw [hnone] at hrec
          cases hrec

-- alloc-level wrappers

theorem alloc_eq_ok {T : Type} {heap heap' : List (OrcInner T)} {v : T} {hd : Orc}
    (h : alloc heap v = (heap', Except.ok hd)) :
    hd.weight_exp = MAX_WEIGHT_EXP ∧
    hd.pointer_data < heap.length ∧
    (∃ sl, heap.get? hd.pointer_data = some sl ∧ sl.weight = 0) ∧
    heap' = heap.set hd.pointer_data ⟨MAX_WEIGHT, some v⟩ ∧
    (∀ j sl, j < hd.pointer_data → heap.get? j = some sl → sl.weight ≠ 0) := by
  rw [alloc] at h
  cases hrec : allocLoop v heap with
  | none =>
    rw [hrec] at h
    have hsnd : (Except.error "Out of memory" : Except String Orc) = Except.ok hd :=
      congrArg Prod.snd h
    cases hsnd
  | some p =>
    obtain ⟨hp, i⟩ := p
    rw [hrec] at h
    have hfst : hp = heap' := congrArg Prod.fst h
    have hsnd : (Except.ok (⟨i, MAX_WEIGHT_EXP⟩ : Orc) : Except String Orc) = Except.ok hd :=
      congrArg Prod.snd h
    injection hsnd with hsnd
    subst hfst; subst hsnd
    obtain ⟨hlt, hex, hset, hprev⟩ := allocLoop_eq_some v heap hp i hrec
    exact ⟨rfl, hlt, hex, hset, hprev⟩

theorem alloc_eq_err {T : Type} {heap : List (OrcInner T)} (v : T)
    (h : ∀ sl ∈ heap, sl.weight ≠ 0) :
    alloc heap v = (heap, Except.error "Out of memory") := by
  rw [alloc, (allocLoop_eq_none v heap).mpr h]

-- inversion lemmas for the remaining operations

theorem cloneOrc_eq_ok {h h₁ h₂ : Orc} (hc : cloneOrc h = RustOutcome.ok (h₁, h₂)) :
    1 < h.weight_exp ∧
    h₁ = ⟨h.pointer_data, h.weight_exp - 1⟩ ∧
    h₂ = ⟨h.pointer_data, h.weight_exp - 1⟩ := by
  rw [cloneOrc] at hc
  by_cases he : 1 < h.weight_exp
  · rw [if_pos he] at hc
    injection hc with hc
    exact ⟨he, (congrArg Prod.fst hc).symm, (congrArg Prod.snd hc).symm⟩
  · rw [if_neg he] at hc; cases hc

theorem with_capacity_ok {T : Type} {n : Nat} {heap : List (OrcInner T)}
    (h : with_capacity T n = RustOutcome.ok heap) :
    heap = List.replicate n ⟨0, none⟩ := by
  rw [with_capacity] at h
  cases hg : (List.replicate n (⟨0, none⟩ : OrcInner T)).get? ((n + (USIZE - 1)) % USIZE) with
  | none => rw [hg] at h; cases h
  | some sl => rw [hg] at h; injection h with h; exact h.symm

theorem with_capacity_pos (T : Type) {n : Nat} (hn : 1 ≤ n) :
    with_capacity T n = RustOutcome.ok (List.replicate n ⟨0, none⟩) := by
  have hUSIZE : 1 ≤ USIZE := by decide
  have hidx : (n + (USIZE - 1)) % USIZE < n := by
    have h1 : n + (USIZE - 1) = (n - 1) + USIZE := by omega
    rw [h1, Nat.add_mod_right]
    exact lt_of_le_of_lt (Nat.mod_le _ _) (by omega)
  have hg : (List.replicate n (⟨0, none⟩ : OrcInner T)).get?
      ((n + (USIZE - 1)) % USIZE) = some ⟨0, none⟩ := by
    rw [List.get?_eq_some]
    refine ⟨by simpa using hidx, ?_⟩
    simp
  rw [with_capacity, hg]

theorem two_two_the_MWE : two_two_the MAX_WEIGHT_EXP = MAX_WEIGHT := by decide

theorem two_two_the_split {e : Nat} (he : 1 ≤ e) :
    two_two_the (e - 1) + two_two_the (e - 1) = two_two_the e := by
  simp only [two_two_the_eq]
  have he' : e - 1 + 1 = e := by omega
  calc 2 ^ (e - 1) + 2 ^ (e - 1) = 2 ^ (e - 1) * 2 := by ring
  _ = 2 ^ (e - 1 + 1) := (pow_succ 2 (e - 1)).symm
  _ = 2 ^ e := by rw [he']

theorem handleSum_middle (l₁ l₂ : List Orc) (h : Orc) (i : Nat) :
    handleSum (l₁ ++ h :: l₂) i =
      handleSum (l₁ ++ l₂) i +
        (if h.pointer_data = i then two_two_the h.weight_exp else 0) := by
  rw [handleSum_append, handleSum_append, handleSum_cons]
  omega

theorem length_dropOrc {T : Type} (heap : List (OrcInner T)) (h : Orc) :
    (dropOrc heap h).length = heap.length := by
  rw [dropOrc]
  cases hg : heap.get? h.pointer_data with
  | none => rfl
  | some s => exact List.length_set heap h.pointer_data _

theorem collectHeap_get? {T : Type} (heap : List (OrcInner T)) (i : Nat) :
    (collectHeap heap).get? i =
      (heap.get? i).map fun s =>
        if s.weight = 0 then (⟨MAX_WEIGHT, none⟩ : OrcInner T) else s := by
  rw [collectHeap, List.get?_eq_getElem?, List.get?_eq_getElem?]
  exact List.getElem?_map _ heap i

theorem length_collectHeap {T : Type} (heap : List (OrcInner T)) :
    (collectHeap heap).length = heap.length := by
  rw [collectHeap]; exact List.length_map heap _

-- the reachability invariant

/-- State of one slot relative to the total weight `sum` currently owned by
the live handles that reference it.  Either the conservation equation holds
(with a stored value whenever any weight is outstanding), or the slot was
cleared by `collect`: counter parked at `MAX_WEIGHT`, payload gone, and no
live handle references it. -/
def SlotOk {T : Type} (sum : Nat) (sl : OrcInner T) : Prop :=
  (sl.weight = sum ∧ (0 < sum → sl.data.isSome = true)) ∨
  (sl.weight = MAX_WEIGHT ∧ sl.data = none ∧ sum = 0)

/-- Reachability invariant: every live handle points inside the heap with an
exponent of at most `MAX_WEIGHT_EXP`, and every slot satisfies `SlotOk` with
its counter bounded by `MAX_WEIGHT`. -/
def Inv {T : Type} (s : GState T) : Prop :=
  (∀ h ∈ s.handles, h.pointer_data < s.heap.length ∧ h.weight_exp ≤ MAX_WEIGHT_EXP) ∧
  ∀ i sl, s.heap.get? i = some sl →
    SlotOk (handleSum s.handles i) sl ∧ sl.weight ≤ MAX_WEIGHT

theorem inv_init {T : Type} {n : Nat} {heap : List (OrcInner T)}
    (h : with_capacity T n = RustOutcome.ok heap) :
    Inv (⟨heap, []⟩ : GState T) := by
  obtain rfl := with_capacity_ok h
  constructor
  · intro h hm; cases hm
  · intro i sl hget
    obtain ⟨hi, hval⟩ := List.get?_eq_some.mp hget
    have hsl : sl = ⟨0, none⟩ := by
      rw [← hval]; simp
    subst hsl
    exact ⟨Or.inl ⟨rfl, by intro h0; cases h0⟩, Nat.zero_le _⟩

theorem inv_step {T : Type} {c : Bool} {s s' : GState T}
    (hinv : Inv s) (hstep : Step T c s s') : Inv s' := by
  obtain ⟨hhdl, hslot⟩ := hinv
  cases hstep with
  | allocStep v heap' h halloc =>
    obtain ⟨hexp, hlt, ⟨sl₀, hget₀, hw₀⟩, hset, hprev⟩ := alloc_eq_ok halloc
    have hMW0 : MAX_WEIGHT ≠ 0 := MAX_WEIGHT_ne_zero
    have hsum₀ : handleSum s.handles h.pointer_data = 0 := by
      rcases (hslot _ _ hget₀).1 with ⟨hcons, _⟩ | ⟨hmw, _, _⟩
      · omega
      · omega
    subst hset
    constructor
    · intro h' hm
      rcases List.mem_cons.mp hm with heq | hmem
      · subst heq
        exact ⟨by rw [List.length_set]; exact hlt, le_of_eq hexp⟩
      · have := hhdl h' hmem
        exact ⟨by rw [List.length_set]; exact this.1, this.2⟩
    · intro i sl hget
      by_cases hip : i = h.pointer_data
      · rw [hip, List.get?_set_eq_of_lt _ hlt] at hget
        injection hget with hget
        subst hget
        have hsum : handleSum (h :: s.handles) h.pointer_data = MAX_WEIGHT := by
          rw [handleSum_cons, if_pos rfl, hsum₀, Nat.add_zero, hexp, two_two_the_MWE]
        rw [hip, hsum]
        exact ⟨Or.inl ⟨rfl, fun _ => rfl⟩, le_refl _⟩
      · rw [List.get?_set_ne _ _ fun heq => hip heq.symm] at hget
        have hsum : handleSum (h :: s.handles) i = handleSum s.handles i := by
          rw [handleSum_cons, if_neg fun heq => hip heq.symm, Nat.zero_add]
        rw [hsum]
        exact hslot i sl hget
  | cloneStep l₁ l₂ h h₁ h₂ hsplit hclone =>
    obtain ⟨he, heq₁, heq₂⟩ := cloneOrc_eq_ok hclone
    have hmem : h ∈ s.handles := by
      rw [hsplit]; exact List.mem_append_right l₁ (List.mem_cons_self h l₂)
    obtain ⟨hhp, hhe⟩ := hhdl h hmem
    have he₁p : h₁.pointer_data = h.pointer_data := by rw [heq₁]
    have he₂p : h₂.pointer_data = h.pointer_data := by rw [heq₂]
    have he₁e : h₁.weight_exp = h.weight_exp - 1 := by rw [heq₁]
    have he₂e : h₂.weight_exp = h.weight_exp - 1 := by rw [heq₂]
    have hsum : ∀ i, handleSum (l₁ ++ h₁ :: h₂ :: l₂) i = handleSum s.handles i := by
      intro i
      rw [hsplit, handleSum_middle l₁ l₂ h i, handleSum_append, handleSum_cons,
        handleSum_cons, handleSum_append, he₁p, he₂p, he₁e, he₂e]
      have hs := two_two_the_split (le_of_lt he)
      by_cases hp : h.pointer_data = i
      · rw [if_pos hp, if_pos hp]
        omega
      · rw [if_neg hp, if_neg hp]
        omega
    constructor
    · intro h' hm
      rcases List.mem_append.mp hm with hmem₁ | hmem₂
      · exact hhdl h' (by rw [hsplit]; exact List.mem_append_left _ hmem₁)
      · rcases List.mem_cons.mp hmem₂ with heq | hmem₃
        · subst heq
          rw [he₁p, he₁e]
          exact ⟨hhp, by omega⟩
        · rcases List.mem_cons.mp hmem₃ with heq | hmem₄
          · subst heq
            rw [he₂p, he₂e]
            exact ⟨hhp, by omega⟩
          · exact hhdl h' (by
              rw [hsplit]
              exact List.mem_append_right _ (List.mem_cons_of_mem h hmem₄))
    · intro i sl hget
      rw [hsum i]
      exact hslot i sl hget
  | dropStep l₁ l₂ h hsplit =>
    have hmem : h ∈ s.handles := by
      rw [hsplit]; exact List.mem_append_right l₁ (List.mem_cons_self h l₂)
    obtain ⟨hhp, hhe⟩ := hhdl h hmem
    obtain ⟨sl₀, hget₀⟩ : ∃ sl, s.heap.get? h.pointer_data = some sl :=
      ⟨_, List.get?_eq_get hhp⟩
    have hterm : two_two_the h.weight_exp ≤ handleSum s.handles h.pointer_data := by
      have := le_handleSum hmem
      exact this
    have hpos : 0 < handleSum s.handles h.pointer_data :=
      lt_of_lt_of_le (two_two_the_pos _) hterm
    have hMW0 : MAX_WEIGHT ≠ 0 := MAX_WEIGHT_ne_zero
    obtain ⟨hok₀, hbound₀⟩ := hslot _ _ hget₀
    have hcons₀ : sl₀.weight = handleSum s.handles h.pointer_data ∧
        sl₀.data.isSome = true := by
      rcases hok₀ with ⟨hc, hd⟩ | ⟨_, _, hzero⟩
      · exact ⟨hc, hd hpos⟩
      · omega
    have hx : two_two_the h.weight_exp ≤ sl₀.weight := by
      rw [hcons₀.1]; exact hterm
    have hdrop : dropOrc s.heap h =
        s.heap.set h.pointer_data
          ⟨sl₀.weight - two_two_the h.weight_exp, sl₀.data⟩ := by
      rw [dropOrc, hget₀]
      show s.heap.set h.pointer_data
          ⟨fetch_sub_wrap sl₀.weight (two_two_the h.weight_exp), sl₀.data⟩ = _
      rw [fetch_sub_wrap_eq hx (lt_of_le_of_lt hbound₀ MAX_WEIGHT_lt_USIZE)]
    have hsumdel : ∀ i, handleSum s.handles i =
        handleSum (l₁ ++ l₂) i +
          (if h.pointer_data = i then two_two_the h.weight_exp else 0) := by
      intro i; rw [hsplit]; exact handleSum_middle l₁ l₂ h i
    rw [hdrop]
    constructor
    · intro h' hm
      have hm' : h' ∈ s.handles := by
        rw [hsplit]
        rcases List.mem_append.mp hm with hmem₁ | hmem₂
        · exact List.mem_append_left _ hmem₁
        · exact List.mem_append_right _ (List.mem_cons_of_mem h hmem₂)
      have := hhdl h' hm'
      exact ⟨by rw [List.length_set]; exact this.1, this.2⟩
    · intro i sl hget
      by_cases hip : i = h.pointer_data
      · rw [hip, List.get?_set_eq_of_lt _ hhp] at hget
        injection hget with hget
        subst hget
        have hnew : handleSum (l₁ ++ l₂) h.pointer_data =
            sl₀.weight - two_two_the h.weight_exp := by
          have hdel := hsumdel h.pointer_data
          rw [if_pos rfl] at hdel
          omega
        rw [hip, hnew]
        refine ⟨Or.inl ⟨rfl, fun _ => hcons₀.2⟩, ?_⟩
        exact le_trans (Nat.sub_le _ _) hbound₀
      · rw [List.get?_set_ne _ _ fun heq => hip heq.symm] at hget
        have hsum : handleSum (l₁ ++ l₂) i = handleSum s.handles i := by
          have := hsumdel i
          rw [if_neg fun heq => hip heq.symm] at this
          omega
        rw [hsum]
        exact hslot i sl hget
  | collectStep hc =>
    constructor
    · intro h' hm
      have := hhdl h' hm
      exact ⟨by rw [length_collectHeap]; exact this.1, this.2⟩
    · intro i sl hget
      rw [collectHeap_get?] at hget
      cases hget₀ : s.heap.get? i with
      | none => rw [hget₀] at hget; cases hget
      | some sl₀ =>
        rw [hget₀] at hget
        injection hget with hget
        have hget' : (if sl₀.weight = 0 then (⟨MAX_WEIGHT, none⟩ : OrcInner T) else sl₀)
            = sl := hget
        obtain ⟨hok₀, hbound₀⟩ := hslot _ _ hget₀
        by_cases hw : sl₀.weight = 0
        · rw [if_pos hw] at hget'
          subst hget'
          have hsum0 : handleSum s.handles i = 0 := by
            have hMW0 : MAX_WEIGHT ≠ 0 := MAX_WEIGHT_ne_zero
            rcases hok₀ with ⟨hc₀, _⟩ | ⟨hc₀, _, hz⟩
            · omega
            · omega
          exact ⟨Or.inr ⟨rfl, rfl, hsum0⟩, le_refl _⟩
        · rw [if_neg hw] at hget'
          subst hget'
          exact ⟨hok₀, hbound₀⟩

theorem inv_reachable {T : Type} {c : Bool} {n : Nat} {s : GState T}
    (hr : Reachable T c n s) : Inv s := by
  induction hr with
  | init heap h => exact inv_init h
  | step s s' _ hstep ih => exact inv_step ih hstep

-- access lemmas for dropOrc

theorem dropOrc_get?_self {T : Type} {heap : List (OrcInner T)} {h : Orc} {sl₀ : OrcInner T}
    (hg : heap.get? h.pointer_data = some sl₀) :
    (dropOrc heap h).get? h.pointer_data =
      some ⟨fetch_sub_wrap sl₀.weight (two_two_the h.weight_exp), sl₀.data⟩ := by
  obtain ⟨hlt, _⟩ := List.get?_eq_some.mp hg
  rw [dropOrc, hg]
  exact List.get?_set_eq_of_lt _ hlt

theorem dropOrc_get?_ne {T : Type} (heap : List (OrcInner T)) (h : Orc) {i : Nat}
    (hne : i ≠ h.pointer_data) : (dropOrc heap h).get? i = heap.get? i := by
  rw [dropOrc]
  cases hg : heap.get? h.pointer_data with
  | none => rfl
  | some sl₀ => exact List.get?_set_ne _ _ fun heq => hne heq.symm

theorem reach_steps {T : Type} {c : Bool} {n : Nat} {s s' : GState T}
    (hr : Reachable T c n s) (hs : Steps T c s s') : Reachable T c n s' := by
  induction hs with
  | refl => exact hr
  | tail s₂ s₃ hsteps hstep ih => exact Reachable.step _ _ ih hstep

-- the collect-free system never leaves a nonzero counter on an empty payload

/-- In runs that never invoke the sweep, a slot with no stored value always
has a zero weight counter (the `collect`-parked state cannot arise). -/
def NC {T : Type} (s : GState T) : Prop :=
  ∀ i sl, s.heap.get? i = some sl → sl.data = none → sl.weight = 0

theorem nc_reachable {T : Type} {n : Nat} {s : GState T}
    (hr : Reachable T false n s) : NC s := by
  induction hr with
  | init heap h =>
    obtain rfl := with_capacity_ok h
    intro i sl hget hdata
    obtain ⟨hi, hval⟩ := List.get?_eq_some.mp hget
    have hsl : sl = ⟨0, none⟩ := by rw [← hval]; simp
    rw [hsl]
  | step s s' hr hstep ih =>
    obtain ⟨hhdl, hslot⟩ := inv_reachable hr
    cases hstep with
    | allocStep v heap' h halloc =>
      obtain ⟨hexp, hlt, ⟨sl₀, hget₀, hw₀⟩, hset, hprev⟩ := alloc_eq_ok halloc
      subst hset
      intro i sl hget hdata
      by_cases hip : i = h.pointer_data
      · rw [hip, List.get?_set_eq_of_lt _ hlt] at hget
        injection hget with hget
        subst hget
        cases hdata
      · rw [List.get?_set_ne _ _ fun heq => hip heq.symm] at hget
        exact ih i sl hget hdata
    | cloneStep l₁ l₂ h h₁ h₂ hsplit hclone =>
      intro i sl hget hdata
      exact ih i sl hget hdata
    | dropStep l₁ l₂ h hsplit =>
      have hmem : h ∈ s.handles := by
        rw [hsplit]; exact List.mem_append_right l₁ (List.mem_cons_self h l₂)
      obtain ⟨hhp, hhe⟩ := hhdl h hmem
      obtain ⟨sl₀, hget₀⟩ : ∃ sl, s.heap.get? h.pointer_data = some sl :=
        ⟨_, List.get?_eq_get hhp⟩
      intro i sl hget hdata
      by_cases hip : i = h.pointer_data
      · subst hip
        rw [dropOrc_get?_self hget₀] at hget
        injection hget with hget
        subst hget
        have hdata₀ : sl₀.data = none := hdata
        have hpos : 0 < handleSum s.handles h.pointer_data :=
          lt_of_lt_of_le (two_two_the_pos _) (le_handleSum hmem)
        rcases (hslot _ _ hget₀).1 with ⟨_, hd⟩ | ⟨_, _, hz⟩
        · rw [hdata₀] at hd
          cases hd hpos
        · omega
      · rw [dropOrc_get?_ne _ _ hip] at hget
        exact ih i sl hget hdata
    | collectStep hc => cases hc

-- claim theorems

/-- C1: contrary to the claim (and the crate's own doc comment), the drop of
the last remaining handle does not destroy the stored value and does not
return the slot to the empty state during the drop call itself.  Concretely:
a capacity-1 arena whose only slot holds weight `MAX_WEIGHT` and value `5`
under its sole never-cloned handle; dropping that handle brings the counter
to exactly zero, yet the payload is still `some 5` — the stored value's
destructor has not run and the slot still holds the value (it is freed later
by `collect` or by an overwriting reallocation). -/
theorem C1_drop_does_not_free :
    dropOrc [(⟨MAX_WEIGHT, some 5⟩ : OrcInner Nat)] ⟨0, MAX_WEIGHT_EXP⟩ =
      [⟨0, some 5⟩] ∧
    ([(⟨0, some 5⟩ : OrcInner Nat)] ≠ [⟨0, none⟩]) :=
  ⟨rfl, by decide⟩

/-- C2: conservation invariant for the collect-free handle protocol
(allocate / clone / drop, the three operations the claim names): in every
reachable state, every slot's weight counter equals the sum of
`2^weight_exp` over the live handles referencing it, and the counter is zero
(the slot is Empty, i.e. reclaimable by `alloc`) exactly when no live handle
references the slot. -/
theorem C2_conservation {T : Type} {n : Nat} {s : GState T}
    (hr : Reachable T false n s) :
    ∀ i sl, s.heap.get? i = some sl →
      sl.weight = handleSum s.handles i ∧
      (sl.weight = 0 ↔ ∀ h ∈ s.handles, h.pointer_data ≠ i) := by
  obtain ⟨hhdl, hslot⟩ := inv_reachable hr
  have hnc := nc_reachable hr
  intro i sl hget
  obtain ⟨hok, hbound⟩ := hslot i sl hget
  have hcons : sl.weight = handleSum s.handles i := by
    rcases hok with ⟨hc, _⟩ | ⟨hmw, hdata, _⟩
    · exact hc
    · have h0 := hnc i sl hget hdata
      have hMW0 : MAX_WEIGHT ≠ 0 := MAX_WEIGHT_ne_zero
      omega
  refine ⟨hcons, ?_⟩
  rw [hcons]
  exact handleSum_eq_zero

theorem C2_conservation_witness :
    (0 : Nat) = handleSum [] 0 ∧
    ((0 : Nat) = 0 ↔ ∀ h ∈ ([] : List Orc), h.pointer_data ≠ 0) :=
  C2_conservation (@Reachable.init Nat false 1 [⟨0, none⟩] rfl) 0 ⟨0, none⟩ rfl

/-- C3 counterexample: the claim promises that every handle with weight
exponent greater than 0 clones successfully, but a handle with exponent 1
panics: the source's guard requires the exponent to exceed 1. -/
theorem C3_clone_exp_one_panics :
    0 < 1 ∧ cloneOrc ⟨0, 1⟩ = RustOutcome.panicked "not implemented yet" :=
  ⟨Nat.zero_lt_one, rfl⟩

/-- C3 (amended): for every handle with weight exponent e greater than 1
(not merely greater than 0), clone succeeds: the original's exponent is
decremented to e-1, the returned handle carries the same e-1, the two shares
add back to exactly the original share (2^(e-1) + 2^(e-1) = 2^e), and the
corresponding system transition leaves the heap — hence every slot's shared
weight counter — unchanged.  For e = 1 (and e = 0) clone panics instead. -/
theorem C3_clone_split {h : Orc} (he : 1 < h.weight_exp) :
    cloneOrc h = RustOutcome.ok
      (⟨h.pointer_data, h.weight_exp - 1⟩, ⟨h.pointer_data, h.weight_exp - 1⟩) ∧
    two_two_the (h.weight_exp - 1) + two_two_the (h.weight_exp - 1)
      = two_two_the h.weight_exp ∧
    (∀ (T : Type) (c : Bool) (s : GState T) (l₁ l₂ : List Orc),
      s.handles = l₁ ++ h :: l₂ →
      Step T c s ⟨s.heap, l₁ ++ (⟨h.pointer_data, h.weight_exp - 1⟩ : Orc) ::
        (⟨h.pointer_data, h.weight_exp - 1⟩ : Orc) :: l₂⟩) := by
  have hok : cloneOrc h = RustOutcome.ok
      (⟨h.pointer_data, h.weight_exp - 1⟩, ⟨h.pointer_data, h.weight_exp - 1⟩) := by
    rw [cloneOrc, if_pos he]
  exact ⟨hok, two_two_the_split (le_of_lt he),
    fun T c s l₁ l₂ hsplit => Step.cloneStep s l₁ l₂ h _ _ hsplit hok⟩

theorem C3_clone_split_witness :
    cloneOrc ⟨0, 5⟩ = RustOutcome.ok (⟨0, 4⟩, ⟨0, 4⟩) ∧
    two_two_the 4 + two_two_the 4 = two_two_the 5 ∧
    (∀ (T : Type) (c : Bool) (s : GState T) (l₁ l₂ : List Orc),
      s.handles = l₁ ++ (⟨0, 5⟩ : Orc) :: l₂ →
      Step T c s ⟨s.heap, l₁ ++ (⟨0, 4⟩ : Orc) :: (⟨0, 4⟩ : Orc) :: l₂⟩) :=
  C3_clone_split (by decide)

/-- C4 counterexample: a handle at the minimum weight exponent 0 does not
fail its clone by returning an explicit error value — the clone call panics
with "not implemented yet" (the source's `Clone` impl has no error channel
at all). -/
theorem C4_clone_zero_no_error_value :
    cloneOrc ⟨0, 0⟩ = RustOutcome.panicked "not implemented yet" ∧
    ∀ r : Orc × Orc, cloneOrc ⟨0, 0⟩ ≠ RustOutcome.ok r :=
  ⟨rfl, fun r hok => by cases hok⟩

/-- C4 (amended): for every handle at the minimum weight exponent (e = 0),
clone fails by panicking with "not implemented yet" rather than by returning
an explicit `CannotSplitFurther`-style error value; no successful result is
produced, so the clone transition is never enabled and neither the handle
nor the slot's counter is modified (the panic precedes any mutation). -/
theorem C4_clone_min_panics {h : Orc} (he : h.weight_exp = 0) :
    cloneOrc h = RustOutcome.panicked "not implemented yet" ∧
    ∀ r : Orc × Orc, cloneOrc h ≠ RustOutcome.ok r := by
  have hp : cloneOrc h = RustOutcome.panicked "not implemented yet" := by
    rw [cloneOrc, if_neg (by omega)]
  refine ⟨hp, fun r hok => ?_⟩
  rw [hp] at hok
  cases hok

theorem C4_clone_min_panics_witness :
    cloneOrc ⟨3, 0⟩ = RustOutcome.panicked "not implemented yet" ∧
    ∀ r : Orc × Orc, cloneOrc ⟨3, 0⟩ ≠ RustOutcome.ok r :=
  C4_clone_min_panics rfl

/-- C5: a successful allocation claims its slot through the single
compare-and-swap from weight 0 (Empty) to `MAX_WEIGHT = 2^(AddressBits-1)`:
the claimed slot's counter was exactly 0 beforehand and holds `MAX_WEIGHT`
with the stored value afterwards, the returned handle has exponent
`MAX_WEIGHT_EXP = AddressBits - 1` whose share `2^exp` is the full weight,
and — because the same step flips the counter away from 0 — an allocation
run after it can never claim the same slot again. -/
theorem C5_alloc_claims_by_cas {T : Type} {heap heap' : List (OrcInner T)}
    {v : T} {hd : Orc} (h : alloc heap v = (heap', Except.ok hd)) :
    MAX_WEIGHT = 2 ^ (PTR_SIZE * 8 - 1) ∧
    hd.weight_exp = MAX_WEIGHT_EXP ∧
    two_two_the hd.weight_exp = MAX_WEIGHT ∧
    (∃ sl, heap.get? hd.pointer_data = some sl ∧ sl.weight = 0) ∧
    heap' = heap.set hd.pointer_data ⟨MAX_WEIGHT, some v⟩ ∧
    heap'.get? hd.pointer_data = some ⟨MAX_WEIGHT, some v⟩ ∧
    (∀ (w : T) (heap'' : List (OrcInner T)) (hd₂ : Orc),
      alloc heap' w = (heap'', Except.ok hd₂) →
      hd₂.pointer_data ≠ hd.pointer_data) := by
  obtain ⟨hexp, hlt, hex, hset, hprev⟩ := alloc_eq_ok h
  have hget' : heap'.get? hd.pointer_data = some ⟨MAX_WEIGHT, some v⟩ := by
    rw [hset]; exact List.get?_set_eq_of_lt _ hlt
  refine ⟨by decide, hexp, by rw [hexp]; exact two_two_the_MWE, hex, hset, hget', ?_⟩
  intro w heap'' hd₂ h₂ heqp
  obtain ⟨_, _, ⟨sl₂, hget₂, hw₂⟩, _, _⟩ := alloc_eq_ok h₂
  rw [heqp, hget'] at hget₂
  injection hget₂ with hget₂
  rw [← hget₂] at hw₂
  exact MAX_WEIGHT_ne_zero hw₂

theorem C5_alloc_claims_by_cas_witness :
    MAX_WEIGHT = 2 ^ (PTR_SIZE * 8 - 1) ∧
    (⟨0, MAX_WEIGHT_EXP⟩ : Orc).weight_exp = MAX_WEIGHT_EXP ∧
    two_two_the (⟨0, MAX_WEIGHT_EXP⟩ : Orc).weight_exp = MAX_WEIGHT ∧
    (∃ sl, [(⟨0, none⟩ : OrcInner Nat), ⟨0, none⟩].get?
        (⟨0, MAX_WEIGHT_EXP⟩ : Orc).pointer_data = some sl ∧ sl.weight = 0) ∧
    [(⟨MAX_WEIGHT, some 7⟩ : OrcInner Nat), ⟨0, none⟩] =
      [(⟨0, none⟩ : OrcInner Nat), ⟨0, none⟩].set
        (⟨0, MAX_WEIGHT_EXP⟩ : Orc).pointer_data ⟨MAX_WEIGHT, some 7⟩ ∧
    [(⟨MAX_WEIGHT, some 7⟩ : OrcInner Nat), ⟨0, none⟩].get?
      (⟨0, MAX_WEIGHT_EXP⟩ : Orc).pointer_data = some ⟨MAX_WEIGHT, some 7⟩ ∧
    (∀ (w : Nat) (heap'' : List (OrcInner Nat)) (hd₂ : Orc),
      alloc [(⟨MAX_WEIGHT, some 7⟩ : OrcInner Nat), ⟨0, none⟩] w =
        (heap'', Except.ok hd₂) →
      hd₂.pointer_data ≠ (⟨0, MAX_WEIGHT_EXP⟩ : Orc).pointer_data) :=
  C5_alloc_claims_by_cas (by rfl)

/-- C6: reuse after free in a capacity-2 arena, at T = Nat: two allocations
succeed filling slots 0 and 1; dropping both returned (never-cloned) handles
zeroes both counters while the stale payloads remain; two further
allocations then both succeed by reclaiming the two zero-weight slots
(overwriting the stale payloads); a fifth allocation fails with the
out-of-memory error. -/
theorem C6_reuse_after_free :
    with_capacity Nat 2 = RustOutcome.ok [⟨0, none⟩, ⟨0, none⟩] ∧
    alloc [(⟨0, none⟩ : OrcInner Nat), ⟨0, none⟩] 10 =
      ([⟨MAX_WEIGHT, some 10⟩, ⟨0, none⟩], Except.ok ⟨0, MAX_WEIGHT_EXP⟩) ∧
    alloc [(⟨MAX_WEIGHT, some 10⟩ : OrcInner Nat), ⟨0, none⟩] 20 =
      ([⟨MAX_WEIGHT, some 10⟩, ⟨MAX_WEIGHT, some 20⟩],
        Except.ok ⟨1, MAX_WEIGHT_EXP⟩) ∧
    dropOrc [(⟨MAX_WEIGHT, some 10⟩ : OrcInner Nat), ⟨MAX_WEIGHT, some 20⟩]
        ⟨0, MAX_WEIGHT_EXP⟩ = [⟨0, some 10⟩, ⟨MAX_WEIGHT, some 20⟩] ∧
    dropOrc [(⟨0, some 10⟩ : OrcInner Nat), ⟨MAX_WEIGHT, some 20⟩]
        ⟨1, MAX_WEIGHT_EXP⟩ = [⟨0, some 10⟩, ⟨0, some 20⟩] ∧
    alloc [(⟨0, some 10⟩ : OrcInner Nat), ⟨0, some 20⟩] 30 =
      ([⟨MAX_WEIGHT, some 30⟩, ⟨0, some 20⟩], Except.ok ⟨0, MAX_WEIGHT_EXP⟩) ∧
    alloc [(⟨MAX_WEIGHT, some 30⟩ : OrcInner Nat), ⟨0, some 20⟩] 40 =
      ([⟨MAX_WEIGHT, some 30⟩, ⟨MAX_WEIGHT, some 40⟩],
        Except.ok ⟨1, MAX_WEIGHT_EXP⟩) ∧
    alloc [(⟨MAX_WEIGHT, some 30⟩ : OrcInner Nat), ⟨MAX_WEIGHT, some 40⟩] 50 =
      ([⟨MAX_WEIGHT, some 30⟩, ⟨MAX_WEIGHT, some 40⟩],
        Except.error "Out of memory") :=
  ⟨rfl, rfl, rfl, rfl, rfl, rfl, rfl, rfl⟩

/-- Heap shape after `k` successful allocations of value `v` into a fresh
arena of capacity `N`: the first `k` slots are claimed and hold the value,
the remaining `N - k` slots are untouched. -/
def heapAfter (T : Type) (v : T) (N k : Nat) : List (OrcInner T) :=
  List.replicate k ⟨MAX_WEIGHT, some v⟩ ++ List.replicate (N - k) ⟨0, none⟩

theorem replicate_append_cons {α : Type} (k : Nat) (a : α) (l : List α) :
    List.replicate k a ++ a :: l = List.replicate (k + 1) a ++ l := by
  rw [List.replicate_succ', List.append_assoc, List.singleton_append]

theorem allocLoop_skip_full {T : Type} (v : T) (k : Nat) (rest : List (OrcInner T)) :
    allocLoop v
        (List.replicate k (⟨MAX_WEIGHT, some v⟩ : OrcInner T) ++ ⟨0, none⟩ :: rest) =
      some (List.replicate k ⟨MAX_WEIGHT, some v⟩ ++ ⟨MAX_WEIGHT, some v⟩ :: rest, k) := by
  induction k with
  | zero =>
    rw [List.replicate_zero, List.nil_append, List.nil_append, allocLoop]
    rfl
  | succ k ih =>
    rw [List.replicate_succ, List.cons_append, List.cons_append, allocLoop,
      if_neg (fun hcontra => MAX_WEIGHT_ne_zero hcontra), ih]

/-- C7: a fresh arena of capacity N ≥ 1: the k-th of N consecutive
allocations (0 ≤ k < N) succeeds and claims slot k, so all N succeed; with
all N handles still live the (N+1)-th allocation completes its bounded scan
without finding a zero-weight slot and returns the out-of-memory error with
the arena contents unchanged. -/
theorem C7_capacity_exhaustion (T : Type) (v : T) (N : Nat) (hN : 1 ≤ N) :
    with_capacity T N = RustOutcome.ok (heapAfter T v N 0) ∧
    (∀ k, k < N →
      alloc (heapAfter T v N k) v =
        (heapAfter T v N (k + 1), Except.ok ⟨k, MAX_WEIGHT_EXP⟩)) ∧
    alloc (heapAfter T v N N) v =
      (heapAfter T v N N, Except.error "Out of memory") := by
  refine ⟨with_capacity_pos T hN, ?_, ?_⟩
  · intro k hk
    have hsplit : List.replicate (N - k) (⟨0, none⟩ : OrcInner T) =
        ⟨0, none⟩ :: List.replicate (N - k - 1) ⟨0, none⟩ := by
      have hnk : N - k = (N - k - 1) + 1 := by omega
      conv_lhs => rw [hnk]
      exact List.replicate_succ _ _
    rw [heapAfter, heapAfter, hsplit, alloc, allocLoop_skip_full,
      replicate_append_cons]
    rfl
  · have hNN : N - N = 0 := Nat.sub_self N
    have h0 : heapAfter T v N N =
        List.replicate N (⟨MAX_WEIGHT, some v⟩ : OrcInner T) := by
      rw [heapAfter, hNN, List.replicate_zero, List.append_nil]
    rw [h0]
    apply alloc_eq_err
    intro sl hm
    have hsl := List.eq_of_mem_replicate hm
    rw [hsl]
    exact MAX_WEIGHT_ne_zero

theorem C7_capacity_exhaustion_witness :
    with_capacity Nat 2 = RustOutcome.ok (heapAfter Nat 7 2 0) ∧
    (∀ k, k < 2 →
      alloc (heapAfter Nat 7 2 k) 7 =
        (heapAfter Nat 7 2 (k + 1), Except.ok ⟨k, MAX_WEIGHT_EXP⟩)) ∧
    alloc (heapAfter Nat 7 2 2) 7 =
      (heapAfter Nat 7 2 2, Except.error "Out of memory") :=
  C7_capacity_exhaustion Nat 7 2 (by decide)

theorem derefOrc_eq {T : Type} {heap : List (OrcInner T)} {h : Orc} {sl : OrcInner T}
    (hget : heap.get? h.pointer_data = some sl) : derefOrc heap h = sl.data := by
  rw [derefOrc, hget]

/-- C8: deref never fails on a live handle.  In every reachable state (sweep
allowed): (a) every live handle's deref yields a stored value — the
empty-slot (`unreachable!`) branch is never taken, because the handle's own
un-subtracted share keeps the slot's counter above zero so no drop, alloc or
sweep can have cleared or reused the slot; (b) every single step of the
system (alloc, clone, drop or collect) leaves the value seen through any
handle live before the step unchanged; (c) immediately after an allocation,
the returned handle derefs to exactly the allocated value.  Together these
give: a live handle always derefs to the exact value stored at its
allocation, unchanged. -/
theorem C8_deref_safe {T : Type} {c : Bool} {n : Nat} {s : GState T}
    (hr : Reachable T c n s) :
    (∀ h ∈ s.handles, ∃ v, derefOrc s.heap h = some v) ∧
    (∀ s', Step T c s s' → ∀ h ∈ s.handles,
      derefOrc s'.heap h = derefOrc s.heap h) ∧
    (∀ (v : T) (heap' : List (OrcInner T)) (hd : Orc),
      alloc s.heap v = (heap', Except.ok hd) → derefOrc heap' hd = some v) := by
  obtain ⟨hhdl, hslot⟩ := inv_reachable hr
  refine ⟨?_, ?_, ?_⟩
  · intro h hm
    obtain ⟨hhp, hhe⟩ := hhdl h hm
    obtain ⟨sl, hget⟩ : ∃ sl, s.heap.get? h.pointer_data = some sl :=
      ⟨_, List.get?_eq_get hhp⟩
    have hpos : 0 < handleSum s.handles h.pointer_data :=
      lt_of_lt_of_le (two_two_the_pos _) (le_handleSum hm)
    have hsome : sl.data.isSome = true := by
      rcases (hslot _ _ hget).1 with ⟨_, hd⟩ | ⟨_, _, hz⟩
      · exact hd hpos
      · omega
    obtain ⟨v, hv⟩ := Option.isSome_iff_exists.mp hsome
    refine ⟨v, ?_⟩
    rw [derefOrc_eq hget]
    exact hv
  · intro s' hstep h hm
    obtain ⟨hhp, hhe⟩ := hhdl h hm
    obtain ⟨sl, hget⟩ : ∃ sl, s.heap.get? h.pointer_data = some sl :=
      ⟨_, List.get?_eq_get hhp⟩
    have hpos : 0 < handleSum s.handles h.pointer_data :=
      lt_of_lt_of_le (two_two_the_pos _) (le_handleSum hm)
    cases hstep with
    | allocStep v heap' hd halloc =>
      obtain ⟨hexp, hlt, ⟨sl₀, hget₀, hw₀⟩, hset, hprev⟩ := alloc_eq_ok halloc
      have hsum₀ : handleSum s.handles hd.pointer_data = 0 := by
        have hMW0 : MAX_WEIGHT ≠ 0 := MAX_WEIGHT_ne_zero
        rcases (hslot _ _ hget₀).1 with ⟨hcons, _⟩ | ⟨hmw, _, _⟩
        · omega
        · omega
      have hne : hd.pointer_data ≠ h.pointer_data := by
        intro heq
        rw [← heq] at hpos
        omega
      have hget' : heap'.get? h.pointer_data = some sl := by
        rw [hset, List.get?_set_ne _ _ hne]
        exact hget
      rw [derefOrc_eq hget', derefOrc_eq hget]
    | cloneStep l₁ l₂ h₀ h₁ h₂ hsplit hclone => rfl
    | dropStep l₁ l₂ h₀ hsplit =>
      by_cases hip : h.pointer_data = h₀.pointer_data
      · obtain ⟨hhp₀, _⟩ := hhdl h₀ (by
          rw [hsplit]
          exact List.mem_append_right l₁ (List.mem_cons_self h₀ l₂))
        obtain ⟨sl₀, hget₀⟩ : ∃ sl, s.heap.get? h₀.pointer_data = some sl :=
          ⟨_, List.get?_eq_get hhp₀⟩
        have hget' : (dropOrc s.heap h₀).get? h.pointer_data =
            some ⟨fetch_sub_wrap sl₀.weight (two_two_the h₀.weight_exp), sl₀.data⟩ := by
          rw [hip]
          exact dropOrc_get?_self hget₀
        rw [derefOrc_eq hget', derefOrc_eq (by rw [hip]; exact hget₀)]
      · have hget' : (dropOrc s.heap h₀).get? h.pointer_data =
            some sl := by
          rw [dropOrc_get?_ne _ _ hip]
          exact hget
        rw [derefOrc_eq hget', derefOrc_eq hget]
    | collectStep hc =>
      have hwpos : sl.weight ≠ 0 := by
        rcases (hslot _ _ hget).1 with ⟨hcons, _⟩ | ⟨_, _, hz⟩
        · omega
        · omega
      have hget' : (collectHeap s.heap).get? h.pointer_data = some sl := by
        rw [collectHeap_get?, hget]
        show some (if sl.weight = 0 then (⟨MAX_WEIGHT, none⟩ : OrcInner T) else sl)
          = some sl
        rw [if_neg hwpos]
      rw [derefOrc_eq hget', derefOrc_eq hget]
  · intro v heap' hd halloc
    obtain ⟨hexp, hlt, hex, hset, hprev⟩ := alloc_eq_ok halloc
    have hget' : heap'.get? hd.pointer_data = some ⟨MAX_WEIGHT, some v⟩ := by
      rw [hset]; exact List.get?_set_eq_of_lt _ hlt
    rw [derefOrc_eq hget']

theorem C8_deref_safe_witness :
    (∀ h ∈ [(⟨0, MAX_WEIGHT_EXP⟩ : Orc)],
      ∃ v, derefOrc [(⟨MAX_WEIGHT, some 5⟩ : OrcInner Nat)] h = some v) ∧
    (∀ s', Step Nat true ⟨[⟨MAX_WEIGHT, some 5⟩], [⟨0, MAX_WEIGHT_EXP⟩]⟩ s' →
      ∀ h ∈ [(⟨0, MAX_WEIGHT_EXP⟩ : Orc)],
        derefOrc s'.heap h = derefOrc [(⟨MAX_WEIGHT, some 5⟩ : OrcInner Nat)] h) ∧
    (∀ (v : Nat) (heap' : List (OrcInner Nat)) (hd : Orc),
      alloc [(⟨MAX_WEIGHT, some 5⟩ : OrcInner Nat)] v = (heap', Except.ok hd) →
      derefOrc heap' hd = some v) :=
  C8_deref_safe (Reachable.step _ _ (@Reachable.init Nat true 1 [⟨0, none⟩] rfl)
    (Step.allocStep _ 5 [⟨MAX_WEIGHT, some 5⟩] ⟨0, MAX_WEIGHT_EXP⟩ rfl))

/-- Slot `i` is in the state `collect` leaves behind after clearing it:
counter parked at `MAX_WEIGHT`, payload erased. -/
def Cleared {T : Type} (s : GState T) (i : Nat) : Prop :=
  s.heap.get? i = some ⟨MAX_WEIGHT, none⟩

/-- C9: once `collect` clears a zero-weight slot — leaving its counter at
`MAX_WEIGHT` and its payload `None` while no live handle holds any share of
it — that slot is permanently lost to the allocator: in every later state
the slot stays in the cleared configuration, no live handle ever references
it, and any successful allocation claims a different slot (alloc only
claims counters that read 0, and nothing ever returns this counter to 0). -/
theorem C9_collect_permanent {T : Type} {c : Bool} {n : Nat} {s s' : GState T}
    {i : Nat} (hr : Reachable T c n s) (hcl : Cleared s i) (hs : Steps T c s s') :
    Cleared s' i ∧
    (∀ h ∈ s'.handles, h.pointer_data ≠ i) ∧
    (∀ (v : T) (heap'' : List (OrcInner T)) (hd : Orc),
      alloc s'.heap v = (heap'', Except.ok hd) → hd.pointer_data ≠ i) := by
  have key : ∀ (t : GState T), Inv t → Cleared t i →
      ∀ h ∈ t.handles, h.pointer_data ≠ i := by
    intro t hinv hclt h hm heq
    obtain ⟨hhdl, hslot⟩ := hinv
    have hpos : 0 < handleSum t.handles i := by
      have hle := le_handleSum hm
      rw [heq] at hle
      exact lt_of_lt_of_le (two_two_the_pos _) hle
    rcases (hslot _ _ hclt).1 with ⟨_, hd⟩ | ⟨_, _, hz⟩
    · have hcontra := hd hpos
      simp at hcontra
    · omega
  have keyalloc : ∀ (t : GState T), Cleared t i →
      ∀ (v : T) (heap'' : List (OrcInner T)) (hd : Orc),
        alloc t.heap v = (heap'', Except.ok hd) → hd.pointer_data ≠ i := by
    intro t hclt v heap'' hd halloc heq
    obtain ⟨_, _, ⟨sl₂, hget₂, hw₂⟩, _, _⟩ := alloc_eq_ok halloc
    rw [heq, hclt] at hget₂
    injection hget₂ with hget₂
    rw [← hget₂] at hw₂
    exact MAX_WEIGHT_ne_zero hw₂
  have hstab : Cleared s' i ∧ Reachable T c n s' := by
    induction hs with
    | refl => exact ⟨hcl, hr⟩
    | tail s₂ s₃ hsteps hstep ih =>
      obtain ⟨hcl₂, hr₂⟩ := ih
      refine ⟨?_, Reachable.step _ _ hr₂ hstep⟩
      have hnh₂ := key s₂ (inv_reachable hr₂) hcl₂
      cases hstep with
      | allocStep v heap' h halloc =>
        obtain ⟨_, hlt, ⟨sl₀, hget₀, hw₀⟩, hset, _⟩ := alloc_eq_ok halloc
        have hne : h.pointer_data ≠ i := keyalloc s₂ hcl₂ v heap' h halloc
        show heap'.get? i = some ⟨MAX_WEIGHT, none⟩
        rw [hset, List.get?_set_ne _ _ hne]
        exact hcl₂
      | cloneStep l₁ l₂ h h₁ h₂ hsplit hclone => exact hcl₂
      | dropStep l₁ l₂ h hsplit =>
        have hne : i ≠ h.pointer_data := by
          intro heq
          exact hnh₂ h (by
            rw [hsplit]
            exact List.mem_append_right l₁ (List.mem_cons_self h l₂)) heq.symm
        show (dropOrc s₂.heap h).get? i = some ⟨MAX_WEIGHT, none⟩
        rw [dropOrc_get?_ne _ _ hne]
        exact hcl₂
      | collectStep hc =>
        show (collectHeap s₂.heap).get? i = some ⟨MAX_WEIGHT, none⟩
        rw [collectHeap_get?, hcl₂]
        show some (if (⟨MAX_WEIGHT, none⟩ : OrcInner T).weight = 0
            then (⟨MAX_WEIGHT, none⟩ : OrcInner T) else ⟨MAX_WEIGHT, none⟩)
          = some ⟨MAX_WEIGHT, none⟩
        rw [ite_self]
  obtain ⟨hcl', hr'⟩ := hstab
  exact ⟨hcl', key s' (inv_reachable hr') hcl', keyalloc s' hcl'⟩

theorem C9_collect_permanent_witness :
    Cleared (⟨[⟨MAX_WEIGHT, none⟩], []⟩ : GState Nat) 0 ∧
    (∀ h ∈ (⟨[(⟨MAX_WEIGHT, none⟩ : OrcInner Nat)], []⟩ : GState Nat).handles,
      h.pointer_data ≠ 0) ∧
    (∀ (v : Nat) (heap'' : List (OrcInner Nat)) (hd : Orc),
      alloc (⟨[(⟨MAX_WEIGHT, none⟩ : OrcInner Nat)], []⟩ : GState Nat).heap v =
        (heap'', Except.ok hd) → hd.pointer_data ≠ 0) :=
  C9_collect_permanent
    (Reachable.step ⟨[⟨0, none⟩], []⟩ ⟨[⟨MAX_WEIGHT, none⟩], []⟩
      (@Reachable.init Nat true 1 [⟨0, none⟩] rfl)
      (Step.collectStep _ rfl))
    rfl
    (Steps.refl _)

/-- C10: constructing a heap with capacity 0 panics — the alignment
self-check indexes `capacity - 1`, which wraps around under `usize`
subtraction so the lookup finds no slot and the `unwrap` fails — rather than
returning an empty arena; for every capacity n ≥ 1 construction returns
normally, with each of the n slots starting at weight 0 with no stored
value. -/
theorem C10_zero_capacity (T : Type) :
    with_capacity T 0 = RustOutcome.panicked "called Option::unwrap on a None value" ∧
    ∀ n, 1 ≤ n → with_capacity T n = RustOutcome.ok (List.replicate n ⟨0, none⟩) :=
  ⟨rfl, fun _ hn => with_capacity_pos T hn⟩

theorem C10_zero_capacity_witness :
    with_capacity Nat 0 = RustOutcome.panicked "called Option::unwrap on a None value" ∧
    with_capacity Nat 1 = RustOutcome.ok (List.replicate 1 ⟨0, none⟩) :=
  ⟨(C10_zero_capacity Nat).1, (C10_zero_capacity Nat).2 1 (by decide)⟩

end OrcModel
